import Mathlib

/-!
A verification development for the LRU cache engine in `src/main.go`
(repository `lru-cache-backend`).

The embedding is sequential and list-based:

* the Go map `values : map[interface{}]*cacheValue` becomes an association
  list from keys to data; keys and data are opaque to the engine, so both
  are taken as `Nat`;
* the Go `container/list` recency queue becomes a `List LruQueueItem`,
  head = front (most recently used), last = back (eviction candidate);
* the `link` pointer held by a map entry is recovered as the queue node
  carrying that entry's key - under the store/queue correspondence
  invariant `WF` each stored key has exactly one such node, which is
  precisely the node the pointer designates;
* `time.Time` / `time.Duration` become `Int` (absolute instants and
  durations); `time.Now()` is passed in explicitly as a parameter `now`;
* the optional `deleteCallback` is modelled by returning the list of
  counts the operation passes to it (assuming a callback is configured).
-/

namespace LRU

/-- `lruQueueItem` (src/main.go lines 20-23): one node of the recency
queue, holding the key and the absolute expiry instant `ttl`. -/
structure LruQueueItem where
  key : Nat
  ttl : Int
deriving DecidableEq

/-- `LRUCache` (src/main.go lines 61-70): the entry store `values`, the
recency queue `queue` (head = front), and the configuration snapshot
`maxSize` / `defaultTTL`.  The Go `cacheValue.link` pointer is implicit:
it is the queue node holding the entry's key. -/
structure LRUCache where
  values : List (Nat × Nat)
  queue : List LruQueueItem
  maxSize : Nat
  defaultTTL : Int
deriving DecidableEq

/-- Go map read `c.values[key]` on the association list. -/
def mapLookup (vs : List (Nat × Nat)) (k : Nat) : Option Nat :=
  match vs with
  | [] => none
  | (k', v) :: rest => if k' = k then some v else mapLookup rest k

/-- Go map write `c.values[key] = v`: replace in place when the key is
present, otherwise add the binding. -/
def mapSet (vs : List (Nat × Nat)) (k v : Nat) : List (Nat × Nat) :=
  match vs with
  | [] => [(k, v)]
  | (k', v') :: rest => if k' = k then (k, v) :: rest else (k', v') :: mapSet rest k v

/-- Go map delete `delete(c.values, key)`: drop the (unique) binding. -/
def mapErase (vs : List (Nat × Nat)) (k : Nat) : List (Nat × Nat) :=
  match vs with
  | [] => []
  | (k', v') :: rest => if k' = k then rest else (k', v') :: mapErase rest k

/-- The keys of the entry store, in list order. -/
def keysOf (vs : List (Nat × Nat)) : List Nat := vs.map Prod.fst

/-- The keys of the recency queue, front to back. -/
def queueKeys (q : List LruQueueItem) : List Nat := q.map LruQueueItem.key

/-- The queue node carrying key `k` (the node `cacheValue.link` points to,
under the store/queue correspondence). -/
def findItem (q : List LruQueueItem) (k : Nat) : Option LruQueueItem :=
  match q with
  | [] => none
  | it :: rest => if it.key = k then some it else findItem rest k

/-- `c.queue.Remove(link)` where `link` is the node for key `k`: unlink
the (unique) node carrying `k`. -/
def removeKey (q : List LruQueueItem) (k : Nat) : List LruQueueItem :=
  match q with
  | [] => []
  | it :: rest => if it.key = k then rest else it :: removeKey rest k

/-- `c.queue.MoveToFront(link)` where `link` is the node for key `k`:
unlink that node and relink it at the front.  (When the key has no node
the Go list leaves the queue unchanged; same here.) -/
def moveToFront (q : List LruQueueItem) (k : Nat) : List LruQueueItem :=
  match findItem q k with
  | none => q
  | some it => it :: removeKey q k

/-- `unsafeDelete` (src/main.go lines 188-192): remove the key's queue
node and its store binding. -/
def unsafeDelete (c : LRUCache) (k : Nat) : LRUCache :=
  { c with queue := removeKey c.queue k, values := mapErase c.values k }

/-- `Get` (src/main.go lines 97-110): look the key up; on a miss return
`(nil, false)` with no state change; on a hit move the key's queue node
to the front and return the stored data.  Note that `Get` consults no
clock and performs no expiry check. -/
def Get (c : LRUCache) (k : Nat) : Option Nat × LRUCache :=
  match mapLookup c.values k with
  | none => (none, c)
  | some v => (some v, { c with queue := moveToFront c.queue k })

/-- First critical section of `Set` (src/main.go lines 113-121), run
under the lock: if the key is already present, overwrite its data in
place and move its node to the front.  The helper returns whether the
key was found; the update itself is `setUpdateSection`. -/
def setCheckFound (c : LRUCache) (k : Nat) : Bool :=
  (mapLookup c.values k).isSome

/-- The found-branch body of `Set`'s first critical section
(src/main.go lines 116-117). -/
def setUpdateSection (c : LRUCache) (k v : Nat) : LRUCache :=
  { c with values := mapSet c.values k v, queue := moveToFront c.queue k }

/-- Second critical section of `Set` (src/main.go lines 127-138), run
under the lock only after the first section saw the key absent (the lock
is RELEASED between the two sections, lines 121 and 127): push a fresh
node carrying expiry `now + defaultTTL` to the front, store the entry,
and if the queue now exceeds `maxSize` evict via `unsafeDelete` the
entry whose node sits at the queue's back. -/
def setInsertSection (c : LRUCache) (k v : Nat) (now : Int) : LRUCache :=
  let c' : LRUCache :=
    { c with queue := (⟨k, now + c.defaultTTL⟩ : LruQueueItem) :: c.queue,
             values := mapSet c.values k v }
  if c'.queue.length > c.maxSize then
    match c'.queue.getLast? with
    | some b => unsafeDelete c' b.key
    | none => c'
  else c'

/-- `Set` (src/main.go lines 112-139) as executed sequentially: the
found-check/update section followed, when the key was absent, by the
insert/evict section. -/
def Set (c : LRUCache) (k v : Nat) (now : Int) : LRUCache :=
  if setCheckFound c k then setUpdateSection c k v
  else setInsertSection c k v now

/-- `Delete` (src/main.go lines 141-154): when the key is present,
remove it via `unsafeDelete` and invoke the delete callback with count 1;
otherwise do nothing.  The second component lists the counts passed to
the configured callback. -/
def Delete (c : LRUCache) (k : Nat) : LRUCache × List Int :=
  match mapLookup c.values k with
  | some _ => (unsafeDelete c k, [1])
  | none => (c, [])

/-- `Clean` (src/main.go lines 156-162): replace the store with a fresh
empty map and the queue with a fresh empty list.  No callback is
invoked, hence the empty invocation list. -/
def Clean (c : LRUCache) : LRUCache × List Int :=
  ({ c with values := [], queue := [] }, [])

/-- `Size` (src/main.go lines 164-168): the queue's length. -/
def Size (c : LRUCache) : Nat := c.queue.length

/-- The loop of `cleanInterval` (src/main.go lines 174-180): range over
the store's entries; for each, read the expiry off the entry's queue
node (`value.link.Value`) and, when `item.ttl.Sub(now) < 0` - i.e. the
expiry is STRICTLY before `now` - remove the entry via `unsafeDelete`
and bump the deletion counter.  Go's map range order is unspecified; the
set of removed entries does not depend on it, and we iterate in the
store's list order.  Deleting the current entry never affects the
entries still to be visited, so ranging over the initial entry list is
faithful. -/
def cleanIntervalLoop (entries : List (Nat × Nat)) (c : LRUCache) (now : Int)
    (deleted : Int) : LRUCache × Int :=
  match entries with
  | [] => (c, deleted)
  | (k, _) :: rest =>
    match findItem c.queue k with
    | some it =>
      if it.ttl - now < 0 then
        cleanIntervalLoop rest (unsafeDelete c k) now (deleted + 1)
      else cleanIntervalLoop rest c now deleted
    | none => cleanIntervalLoop rest c now deleted

/-- `cleanInterval` (src/main.go lines 171-186): one sweep pass at time
`now`.  Returns the swept state and the total `deleted` count, which the
code then passes to the configured callback in a single invocation. -/
def cleanInterval (c : LRUCache) (now : Int) : LRUCache × Int :=
  cleanIntervalLoop c.values c now 0

/-- The callback invocations made by one sweep pass (src/main.go lines
183-185): exactly one call, carrying the pass's total deletion count,
made after the loop finishes (assuming a callback is configured). -/
def cleanIntervalEvents (c : LRUCache) (now : Int) : List Int :=
  [(cleanInterval c now).snd]

/-- Whether the entry for `k` counts as expired at instant `now` in
state `c`: its queue node's `ttl` is strictly before `now` (the test
`item.ttl.Sub(time.Now()) < 0` of src/main.go line 176). -/
def expiredInState (c : LRUCache) (now : Int) (k : Nat) : Bool :=
  match findItem c.queue k with
  | some it => decide (it.ttl - now < 0)
  | none => false

/-- The key `Set c k v now` would evict, read off `Set`'s own branch
structure: none when the key is already present or the post-insertion
queue fits, otherwise the key at the back of the post-insertion queue. -/
def evictedBySet (c : LRUCache) (k : Nat) (now : Int) : Option Nat :=
  if setCheckFound c k then none
  else if ((⟨k, now + c.defaultTTL⟩ : LruQueueItem) :: c.queue).length > c.maxSize then
    (((⟨k, now + c.defaultTTL⟩ : LruQueueItem) :: c.queue).getLast?).map LruQueueItem.key
  else none

/-- The store/queue correspondence invariant (spec section 3, invariant 2):
store keys are pairwise distinct, queue keys are pairwise distinct, and
the two key sets coincide. -/
def WF (c : LRUCache) : Prop :=
  (keysOf c.values).Nodup ∧ (queueKeys c.queue).Nodup ∧
  (∀ k ∈ keysOf c.values, k ∈ queueKeys c.queue) ∧
  (∀ k ∈ queueKeys c.queue, k ∈ keysOf c.values)

instance (c : LRUCache) : Decidable (WF c) := by
  unfold WF; infer_instance

/-! ### Entry-store (association list) lemmas -/

theorem keysOf_nil : keysOf [] = [] := rfl

theorem keysOf_cons (k v : Nat) (vs : List (Nat × Nat)) :
    keysOf ((k, v) :: vs) = k :: keysOf vs := rfl

theorem mapLookup_isSome_iff (vs : List (Nat × Nat)) (k : Nat) :
    (mapLookup vs k).isSome = true ↔ k ∈ keysOf vs := by
  induction vs with
  | nil => simp [mapLookup, keysOf]
  | cons hd tl ih =>
    obtain ⟨k', v⟩ := hd
    by_cases h : k' = k
    · subst h; simp [mapLookup, keysOf_cons]
    · simp only [mapLookup, if_neg h, keysOf_cons, List.mem_cons, ih]
      constructor
      · exact Or.inr
      · rintro (rfl | hm)
        · exact absurd rfl h
        · exact hm

theorem mapLookup_eq_none_iff (vs : List (Nat × Nat)) (k : Nat) :
    mapLookup vs k = none ↔ k ∉ keysOf vs := by
  rw [← mapLookup_isSome_iff]
  cases mapLookup vs k <;> simp

theorem mapLookup_mapSet_self (vs : List (Nat × Nat)) (k v : Nat) :
    mapLookup (mapSet vs k v) k = some v := by
  induction vs with
  | nil => simp [mapSet, mapLookup]
  | cons hd tl ih =>
    obtain ⟨k', v'⟩ := hd
    by_cases h : k' = k
    · simp [mapSet, mapLookup, h]
    · simp [mapSet, mapLookup, h, ih]

theorem mapLookup_mapSet_ne (vs : List (Nat × Nat)) (k v k' : Nat) (h : k' ≠ k) :
    mapLookup (mapSet vs k v) k' = mapLookup vs k' := by
  induction vs with
  | nil => simp [mapSet, mapLookup, Ne.symm h]
  | cons hd tl ih =>
    obtain ⟨k'', v''⟩ := hd
    by_cases hk : k'' = k
    · subst hk; simp [mapSet, mapLookup, Ne.symm h]
    · by_cases hk' : k'' = k' <;> simp [mapSet, mapLookup, hk, hk', h, ih]

theorem keysOf_mapSet_of_mem (vs : List (Nat × Nat)) (k v : Nat)
    (h : k ∈ keysOf vs) : keysOf (mapSet vs k v) = keysOf vs := by
  induction vs with
  | nil => simp [keysOf] at h
  | cons hd tl ih =>
    obtain ⟨k', v'⟩ := hd
    by_cases hk : k' = k
    · subst hk; simp [mapSet, keysOf_cons]
    · rw [keysOf_cons, List.mem_cons] at h
      rcases h with rfl | h
      · exact absurd rfl hk
      · simp [mapSet, hk, keysOf_cons, ih h]

theorem keysOf_mapSet_of_not_mem (vs : List (Nat × Nat)) (k v : Nat)
    (h : k ∉ keysOf vs) : keysOf (mapSet vs k v) = keysOf vs ++ [k] := by
  induction vs with
  | nil => simp [mapSet, keysOf]
  | cons hd tl ih =>
    obtain ⟨k', v'⟩ := hd
    rw [keysOf_cons, List.mem_cons] at h
    push_neg at h
    simp [mapSet, Ne.symm h.1, keysOf_cons, ih h.2]

theorem mapErase_of_not_mem (vs : List (Nat × Nat)) (k : Nat)
    (h : k ∉ keysOf vs) : mapErase vs k = vs := by
  induction vs with
  | nil => rfl
  | cons hd tl ih =>
    obtain ⟨k', v'⟩ := hd
    rw [keysOf_cons, List.mem_cons] at h
    push_neg at h
    simp [mapErase, Ne.symm h.1, ih h.2]

theorem keysOf_mapErase_sublist (vs : List (Nat × Nat)) (k : Nat) :
    List.Sublist (keysOf (mapErase vs k)) (keysOf vs) := by
  induction vs with
  | nil => simp [mapErase, keysOf]
  | cons hd tl ih =>
    obtain ⟨k', v'⟩ := hd
    by_cases h : k' = k
    · simp only [mapErase, if_pos h, keysOf_cons]
      exact List.sublist_cons_self k' (keysOf tl)
    · simp only [mapErase, if_neg h, keysOf_cons]
      exact List.Sublist.cons₂ k' ih

theorem mem_keysOf_mapErase_of_ne (vs : List (Nat × Nat)) (k k' : Nat) (h : k' ≠ k) :
    k' ∈ keysOf (mapErase vs k) ↔ k' ∈ keysOf vs := by
  induction vs with
  | nil => simp [mapErase]
  | cons hd tl ih =>
    obtain ⟨k'', v''⟩ := hd
    by_cases hk : k'' = k
    · subst hk; simp [mapErase, keysOf_cons, h]
    · simp [mapErase, hk, keysOf_cons, ih]

theorem not_mem_keysOf_mapErase (vs : List (Nat × Nat)) (k : Nat)
    (hn : (keysOf vs).Nodup) : k ∉ keysOf (mapErase vs k) := by
  induction vs with
  | nil => simp [mapErase, keysOf]
  | cons hd tl ih =>
    obtain ⟨k', v'⟩ := hd
    rw [keysOf_cons] at hn
    by_cases h : k' = k
    · subst h
      simp only [mapErase, if_pos rfl]
      exact (List.nodup_cons.mp hn).1
    · simp only [mapErase, if_neg h, keysOf_cons, List.mem_cons]
      rintro (rfl | hm)
      · exact h rfl
      · exact ih (List.nodup_cons.mp hn).2 hm

theorem mapLookup_mapErase_self (vs : List (Nat × Nat)) (k : Nat)
    (hn : (keysOf vs).Nodup) : mapLookup (mapErase vs k) k = none := by
  rw [mapLookup_eq_none_iff]
  exact not_mem_keysOf_mapErase vs k hn

theorem mapLookup_mapErase_ne (vs : List (Nat × Nat)) (k k' : Nat) (h : k' ≠ k) :
    mapLookup (mapErase vs k) k' = mapLookup vs k' := by
  induction vs with
  | nil => rfl
  | cons hd tl ih =>
    obtain ⟨k'', v''⟩ := hd
    by_cases hk : k'' = k
    · subst hk; simp [mapErase, mapLookup, Ne.symm h]
    · by_cases hk' : k'' = k' <;> simp [mapErase, mapLookup, hk, hk', h, ih]

theorem length_keysOf (vs : List (Nat × Nat)) : (keysOf vs).length = vs.length := by
  simp [keysOf]

/-! ### Recency-queue lemmas -/

theorem queueKeys_nil : queueKeys [] = [] := rfl

theorem queueKeys_cons (it : LruQueueItem) (q : List LruQueueItem) :
    queueKeys (it :: q) = it.key :: queueKeys q := rfl

theorem removeKey_cons_of_eq (it : LruQueueItem) (q : List LruQueueItem) (k : Nat)
    (h : it.key = k) : removeKey (it :: q) k = q := by
  simp only [removeKey, if_pos h]

theorem removeKey_cons_of_ne (it : LruQueueItem) (q : List LruQueueItem) (k : Nat)
    (h : it.key ≠ k) : removeKey (it :: q) k = it :: removeKey q k := by
  simp only [removeKey, if_neg h]

theorem removeKey_sublist (q : List LruQueueItem) (k : Nat) :
    List.Sublist (removeKey q k) q := by
  induction q with
  | nil => simp [removeKey]
  | cons it rest ih =>
    by_cases h : it.key = k
    · simp only [removeKey, if_pos h]
      exact List.sublist_cons_self it rest
    · simp only [removeKey, if_neg h]
      exact List.Sublist.cons₂ it ih

theorem queueKeys_removeKey_sublist (q : List LruQueueItem) (k : Nat) :
    List.Sublist (queueKeys (removeKey q k)) (queueKeys q) :=
  List.Sublist.map LruQueueItem.key (removeKey_sublist q k)

theorem removeKey_of_not_mem (q : List LruQueueItem) (k : Nat)
    (h : k ∉ queueKeys q) : removeKey q k = q := by
  induction q with
  | nil => rfl
  | cons it rest ih =>
    rw [queueKeys_cons, List.mem_cons] at h
    push_neg at h
    simp [removeKey, h.1.symm, ih h.2]

theorem mem_queueKeys_removeKey_of_ne (q : List LruQueueItem) (k k' : Nat)
    (h : k' ≠ k) : k' ∈ queueKeys (removeKey q k) ↔ k' ∈ queueKeys q := by
  induction q with
  | nil => simp [removeKey]
  | cons it rest ih =>
    by_cases hk : it.key = k
    · simp [removeKey, hk, queueKeys_cons, h]
    · simp [removeKey, hk, queueKeys_cons, ih]

theorem not_mem_queueKeys_removeKey (q : List LruQueueItem) (k : Nat)
    (hn : (queueKeys q).Nodup) : k ∉ queueKeys (removeKey q k) := by
  induction q with
  | nil => simp [removeKey, queueKeys]
  | cons it rest ih =>
    rw [queueKeys_cons] at hn
    by_cases h : it.key = k
    · subst h
      simp only [removeKey, if_pos rfl]
      exact (List.nodup_cons.mp hn).1
    · simp only [removeKey, if_neg h, queueKeys_cons, List.mem_cons]
      rintro (rfl | hm)
      · exact h rfl
      · exact ih (List.nodup_cons.mp hn).2 hm

theorem length_removeKey_of_mem (q : List LruQueueItem) (k : Nat)
    (h : k ∈ queueKeys q) : (removeKey q k).length + 1 = q.length := by
  induction q with
  | nil => simp [queueKeys] at h
  | cons it rest ih =>
    by_cases hk : it.key = k
    · simp [removeKey, hk]
    · rw [queueKeys_cons, List.mem_cons] at h
      rcases h with rfl | h
      · exact absurd rfl hk
      · simp only [removeKey, if_neg hk, List.length_cons]
        rw [← ih h]

theorem findItem_isSome_iff (q : List LruQueueItem) (k : Nat) :
    (findItem q k).isSome = true ↔ k ∈ queueKeys q := by
  induction q with
  | nil => simp [findItem, queueKeys]
  | cons it rest ih =>
    by_cases h : it.key = k
    · simp [findItem, h, queueKeys_cons]
    · simp only [findItem, if_neg h, queueKeys_cons, List.mem_cons, ih]
      constructor
      · exact Or.inr
      · rintro (rfl | hm)
        · exact absurd rfl h
        · exact hm

theorem findItem_key (q : List LruQueueItem) (k : Nat) (it : LruQueueItem)
    (h : findItem q k = some it) : it.key = k := by
  induction q with
  | nil => simp [findItem] at h
  | cons hd rest ih =>
    by_cases hk : hd.key = k
    · simp only [findItem, if_pos hk] at h
      rw [← Option.some_inj.mp h]; exact hk
    · simp only [findItem, if_neg hk] at h
      exact ih h

theorem findItem_mem (q : List LruQueueItem) (k : Nat) (it : LruQueueItem)
    (h : findItem q k = some it) : it ∈ q := by
  induction q with
  | nil => simp [findItem] at h
  | cons hd rest ih =>
    by_cases hk : hd.key = k
    · simp only [findItem, if_pos hk] at h
      rw [← Option.some_inj.mp h]; exact List.mem_cons_self hd rest
    · simp only [findItem, if_neg hk] at h
      exact List.mem_cons_of_mem hd (ih h)

theorem findItem_removeKey_of_ne (q : List LruQueueItem) (k k' : Nat)
    (h : k ≠ k') : findItem (removeKey q k') k = findItem q k := by
  induction q with
  | nil => rfl
  | cons it rest ih =>
    by_cases hk' : it.key = k'
    · subst hk'; simp [removeKey, findItem, Ne.symm h]
    · by_cases hk : it.key = k <;> simp [removeKey, findItem, hk, hk', h, ih]

theorem getLast?_mem {α : Type} (q : List α) (b : α)
    (h : q.getLast? = some b) : b ∈ q := by
  induction q with
  | nil => simp at h
  | cons it rest ih =>
    cases rest with
    | nil =>
      simp only [List.getLast?_singleton, Option.some_inj] at h
      simp [h]
    | cons it' rest' =>
      rw [List.getLast?_cons_cons] at h
      exact List.mem_cons_of_mem it (ih h)

theorem removeKey_getLast (q : List LruQueueItem) (b : LruQueueItem)
    (h : q.getLast? = some b) (hn : (queueKeys q).Nodup) :
    removeKey q b.key = q.dropLast := by
  induction q with
  | nil => simp at h
  | cons it rest ih =>
    cases rest with
    | nil =>
      simp only [List.getLast?_singleton, Option.some_inj] at h
      subst h
      simp [removeKey]
    | cons it' rest' =>
      rw [List.getLast?_cons_cons] at h
      have hb : b ∈ it' :: rest' := getLast?_mem _ _ h
      rw [queueKeys_cons] at hn
      have hne : it.key ≠ b.key := by
        intro he
        exact (List.nodup_cons.mp hn).1 (he ▸ List.mem_map_of_mem LruQueueItem.key hb)
      rw [List.dropLast_cons_of_ne_nil (by simp), removeKey_cons_of_ne _ _ _ hne,
        ih h (List.nodup_cons.mp hn).2]

theorem filter_ne_eq_removeKey (q : List LruQueueItem) (k : Nat)
    (hn : (queueKeys q).Nodup) :
    q.filter (fun it => it.key != k) = removeKey q k := by
  induction q with
  | nil => rfl
  | cons it rest ih =>
    rw [queueKeys_cons] at hn
    by_cases h : it.key = k
    · rw [removeKey_cons_of_eq it rest k h]
      have hf : (it.key != k) = false := by simp [h]
      simp only [List.filter_cons, hf, Bool.false_eq_true, if_false]
      refine List.filter_eq_self.mpr fun a ha => ?_
      have : a.key ≠ k := by
        intro he
        exact (List.nodup_cons.mp hn).1 (h ▸ he ▸ List.mem_map_of_mem LruQueueItem.key ha)
      simpa using this
    · rw [removeKey_cons_of_ne it rest k h]
      have ht : (it.key != k) = true := by simpa using h
      simp only [List.filter_cons, ht, if_true]
      rw [ih (List.nodup_cons.mp hn).2]

theorem moveToFront_eq (q : List LruQueueItem) (k : Nat) (it : LruQueueItem)
    (h : findItem q k = some it) : moveToFront q k = it :: removeKey q k := by
  simp [moveToFront, h]

theorem findItem_eq_none_of_not_mem (q : List LruQueueItem) (k : Nat)
    (h : k ∉ queueKeys q) : findItem q k = none := by
  cases hfi : findItem q k with
  | none => rfl
  | some it => exact absurd ((findItem_isSome_iff q k).mp (by simp [hfi])) h

theorem moveToFront_of_not_mem (q : List LruQueueItem) (k : Nat)
    (h : k ∉ queueKeys q) : moveToFront q k = q := by
  simp [moveToFront, findItem_eq_none_of_not_mem q k h]

theorem exists_findItem_of_mem (q : List LruQueueItem) (k : Nat)
    (h : k ∈ queueKeys q) : ∃ it, findItem q k = some it ∧ it.key = k := by
  have := (findItem_isSome_iff q k).mpr h
  obtain ⟨it, hit⟩ := Option.isSome_iff_exists.mp this
  exact ⟨it, hit, findItem_key q k it hit⟩

theorem queueKeys_moveToFront_of_mem (q : List LruQueueItem) (k : Nat)
    (h : k ∈ queueKeys q) :
    queueKeys (moveToFront q k) = k :: queueKeys (removeKey q k) := by
  obtain ⟨it, hit, hk⟩ := exists_findItem_of_mem q k h
  rw [moveToFront_eq q k it hit, queueKeys_cons, hk]

theorem length_moveToFront_of_mem (q : List LruQueueItem) (k : Nat)
    (h : k ∈ queueKeys q) : (moveToFront q k).length = q.length := by
  obtain ⟨it, hit, _⟩ := exists_findItem_of_mem q k h
  rw [moveToFront_eq q k it hit, List.length_cons, length_removeKey_of_mem q k h]

theorem nodup_queueKeys_moveToFront (q : List LruQueueItem) (k : Nat)
    (hn : (queueKeys q).Nodup) : (queueKeys (moveToFront q k)).Nodup := by
  by_cases h : k ∈ queueKeys q
  · rw [queueKeys_moveToFront_of_mem q k h]
    exact List.nodup_cons.mpr ⟨not_mem_queueKeys_removeKey q k hn,
      hn.sublist (queueKeys_removeKey_sublist q k)⟩
  · rw [moveToFront_of_not_mem q k h]
    exact hn

theorem mem_queueKeys_moveToFront_iff (q : List LruQueueItem) (k k' : Nat)
    (hm : k ∈ queueKeys q) :
    k' ∈ queueKeys (moveToFront q k) ↔ k' ∈ queueKeys q := by
  rw [queueKeys_moveToFront_of_mem q k hm, List.mem_cons]
  by_cases h : k' = k
  · subst h; simp [hm]
  · rw [mem_queueKeys_removeKey_of_ne q k k' h]
    simp [h]

/-! ### Preservation of the store/queue correspondence -/

theorem length_queueKeys (q : List LruQueueItem) : (queueKeys q).length = q.length := by
  simp [queueKeys]

theorem length_eq_of_nodup_of_mem_iff (l m : List Nat) (hl : l.Nodup) (hm : m.Nodup)
    (h : ∀ a, a ∈ l ↔ a ∈ m) : l.length = m.length := by
  have hf : l.toFinset = m.toFinset := by
    ext a; simp [h a]
  rw [← List.toFinset_card_of_nodup hl, ← List.toFinset_card_of_nodup hm, hf]

theorem Size_eq_values_length (c : LRUCache) (hwf : WF c) :
    Size c = c.values.length := by
  obtain ⟨h1, h2, h3, h4⟩ := hwf
  have hkeys : (queueKeys c.queue).length = (keysOf c.values).length :=
    length_eq_of_nodup_of_mem_iff _ _ h2 h1 (fun a => ⟨h4 a, h3 a⟩)
  rw [Size, ← length_queueKeys, hkeys, length_keysOf]

theorem WF_unsafeDelete (c : LRUCache) (k : Nat) (hwf : WF c) :
    WF (unsafeDelete c k) := by
  obtain ⟨h1, h2, h3, h4⟩ := hwf
  refine ⟨h1.sublist (keysOf_mapErase_sublist c.values k),
    h2.sublist (queueKeys_removeKey_sublist c.queue k), ?_, ?_⟩
  · intro k' hk'
    simp only [unsafeDelete] at hk' ⊢
    by_cases h : k' = k
    · exact absurd hk' (h ▸ not_mem_keysOf_mapErase c.values k h1)
    · rw [mem_keysOf_mapErase_of_ne c.values k k' h] at hk'
      rw [mem_queueKeys_removeKey_of_ne c.queue k k' h]
      exact h3 k' hk'
  · intro k' hk'
    simp only [unsafeDelete] at hk' ⊢
    by_cases h : k' = k
    · exact absurd hk' (h ▸ not_mem_queueKeys_removeKey c.queue k h2)
    · rw [mem_queueKeys_removeKey_of_ne c.queue k k' h] at hk'
      rw [mem_keysOf_mapErase_of_ne c.values k k' h]
      exact h4 k' hk'

theorem WF_Get (c : LRUCache) (k : Nat) (hwf : WF c) : WF (Get c k).snd := by
  cases hlk : mapLookup c.values k with
  | none => simpa [Get, hlk] using hwf
  | some v =>
    obtain ⟨h1, h2, h3, h4⟩ := hwf
    have hmem : k ∈ queueKeys c.queue :=
      h3 k ((mapLookup_isSome_iff c.values k).mp (by simp [hlk]))
    refine ⟨by simpa [Get, hlk] using h1, ?_, ?_, ?_⟩
    · simpa [Get, hlk] using nodup_queueKeys_moveToFront c.queue k h2
    · intro k' hk'
      simp only [Get, hlk]
      rw [mem_queueKeys_moveToFront_iff c.queue k k' hmem]
      exact h3 k' (by simpa [Get, hlk] using hk')
    · intro k' hk'
      simp only [Get, hlk] at hk'
      rw [mem_queueKeys_moveToFront_iff c.queue k k' hmem] at hk'
      simpa [Get, hlk] using h4 k' hk'

theorem WF_setUpdateSection (c : LRUCache) (k v : Nat) (hwf : WF c)
    (hmem : k ∈ keysOf c.values) : WF (setUpdateSection c k v) := by
  obtain ⟨h1, h2, h3, h4⟩ := hwf
  have hq : k ∈ queueKeys c.queue := h3 k hmem
  refine ⟨?_, ?_, ?_, ?_⟩
  · simpa [setUpdateSection, keysOf_mapSet_of_mem c.values k v hmem] using h1
  · simpa [setUpdateSection] using nodup_queueKeys_moveToFront c.queue k h2
  · intro k' hk'
    simp only [setUpdateSection] at hk' ⊢
    rw [keysOf_mapSet_of_mem c.values k v hmem] at hk'
    rw [mem_queueKeys_moveToFront_iff c.queue k k' hq]
    exact h3 k' hk'
  · intro k' hk'
    simp only [setUpdateSection] at hk' ⊢
    rw [mem_queueKeys_moveToFront_iff c.queue k k' hq] at hk'
    rw [keysOf_mapSet_of_mem c.values k v hmem]
    exact h4 k' hk'

theorem WF_setInsertPre (c : LRUCache) (k v : Nat) (now : Int) (hwf : WF c)
    (habs : k ∉ keysOf c.values) :
    WF { c with queue := (⟨k, now + c.defaultTTL⟩ : LruQueueItem) :: c.queue,
                values := mapSet c.values k v } := by
  obtain ⟨h1, h2, h3, h4⟩ := hwf
  have hqabs : k ∉ queueKeys c.queue := fun hm => habs (h4 k hm)
  refine ⟨?_, ?_, ?_, ?_⟩
  · rw [keysOf_mapSet_of_not_mem c.values k v habs, List.nodup_append]
    refine ⟨h1, List.nodup_singleton k, ?_⟩
    intro a ha hb
    rw [List.mem_singleton] at hb
    exact habs (hb ▸ ha)
  · rw [queueKeys_cons]
    exact List.nodup_cons.mpr ⟨hqabs, h2⟩
  · intro k' hk'
    rw [keysOf_mapSet_of_not_mem c.values k v habs, List.mem_append] at hk'
    rw [queueKeys_cons, List.mem_cons]
    rcases hk' with hk' | hk'
    · exact Or.inr (h3 k' hk')
    · simp at hk'
      exact Or.inl hk'
  · intro k' hk'
    rw [queueKeys_cons, List.mem_cons] at hk'
    rw [keysOf_mapSet_of_not_mem c.values k v habs, List.mem_append]
    rcases hk' with hk' | hk'
    · exact Or.inr (by simp [hk'])
    · exact Or.inl (h4 k' hk')

theorem WF_setInsertSection (c : LRUCache) (k v : Nat) (now : Int) (hwf : WF c)
    (habs : k ∉ keysOf c.values) : WF (setInsertSection c k v now) := by
  have hpre := WF_setInsertPre c k v now hwf habs
  rw [setInsertSection]
  by_cases hlen : ((⟨k, now + c.defaultTTL⟩ : LruQueueItem) :: c.queue).length > c.maxSize
  · simp only [if_pos hlen]
    cases hlast : ((⟨k, now + c.defaultTTL⟩ : LruQueueItem) :: c.queue).getLast? with
    | none => exact hpre
    | some b => exact WF_unsafeDelete _ b.key hpre
  · simpa only [if_neg hlen] using hpre

theorem WF_Set (c : LRUCache) (k v : Nat) (now : Int) (hwf : WF c) :
    WF (Set c k v now) := by
  rw [Set, setCheckFound]
  cases hlk : mapLookup c.values k with
  | none =>
    simp only [Option.isSome_none, Bool.false_eq_true, if_false]
    exact WF_setInsertSection c k v now hwf ((mapLookup_eq_none_iff c.values k).mp hlk)
  | some d =>
    simp only [Option.isSome_some, if_true]
    exact WF_setUpdateSection c k v hwf
      ((mapLookup_isSome_iff c.values k).mp (by simp [hlk]))

theorem WF_Delete (c : LRUCache) (k : Nat) (hwf : WF c) : WF (Delete c k).fst := by
  cases hlk : mapLookup c.values k with
  | none => simpa [Delete, hlk] using hwf
  | some v => simpa [Delete, hlk] using WF_unsafeDelete c k hwf

theorem WF_Clean (c : LRUCache) : WF (Clean c).fst := by
  exact ⟨List.nodup_nil, List.nodup_nil, by simp [keysOf, Clean], by simp [queueKeys, Clean]⟩

theorem WF_cleanIntervalLoop (entries : List (Nat × Nat)) (c : LRUCache) (now : Int)
    (deleted : Int) (hwf : WF c) : WF (cleanIntervalLoop entries c now deleted).fst := by
  induction entries generalizing c deleted with
  | nil => exact hwf
  | cons hd rest ih =>
    obtain ⟨k, v⟩ := hd
    cases hfi : findItem c.queue k with
    | none => simpa only [cleanIntervalLoop, hfi] using ih c deleted hwf
    | some it =>
      by_cases hexp : it.ttl - now < 0
      · simpa only [cleanIntervalLoop, hfi, if_pos hexp] using
          ih (unsafeDelete c k) (deleted + 1) (WF_unsafeDelete c k hwf)
      · simpa only [cleanIntervalLoop, hfi, if_neg hexp] using ih c deleted hwf

theorem WF_cleanInterval (c : LRUCache) (now : Int) (hwf : WF c) :
    WF (cleanInterval c now).fst :=
  WF_cleanIntervalLoop c.values c now 0 hwf

/-! ### Characterization of one sweep pass -/

theorem expiredInState_unsafeDelete_of_ne (c : LRUCache) (now : Int) (k k' : Nat)
    (h : k' ≠ k) : expiredInState (unsafeDelete c k) now k' = expiredInState c now k' := by
  simp only [expiredInState, unsafeDelete]
  rw [findItem_removeKey_of_ne c.queue k' k h]

theorem cleanIntervalLoop_spec (entries : List (Nat × Nat)) (c : LRUCache) (now : Int)
    (deleted : Int) (hwf : WF c) (hnd : (keysOf entries).Nodup)
    (hsub : ∀ k ∈ keysOf entries, k ∈ keysOf c.values) :
    (∀ k, mapLookup (cleanIntervalLoop entries c now deleted).fst.values k
        = if k ∈ keysOf entries ∧ expiredInState c now k = true then none
          else mapLookup c.values k)
    ∧ (cleanIntervalLoop entries c now deleted).snd
        = deleted + ((keysOf entries).filter (fun k => expiredInState c now k)).length := by
  induction entries generalizing c deleted with
  | nil =>
    refine ⟨fun k => ?_, ?_⟩
    · simp [cleanIntervalLoop, keysOf]
    · simp [cleanIntervalLoop, keysOf]
  | cons hd rest ih =>
    obtain ⟨k0, v0⟩ := hd
    rw [keysOf_cons] at hnd hsub
    have hk0rest : k0 ∉ keysOf rest := (List.nodup_cons.mp hnd).1
    have hndr : (keysOf rest).Nodup := (List.nodup_cons.mp hnd).2
    have hk0mem : k0 ∈ keysOf c.values := hsub k0 (List.mem_cons_self k0 (keysOf rest))
    have hk0q : k0 ∈ queueKeys c.queue := hwf.2.2.1 k0 hk0mem
    obtain ⟨it, hit, hitkey⟩ := exists_findItem_of_mem c.queue k0 hk0q
    by_cases hexp : it.ttl - now < 0
    · -- the head entry is expired and gets removed
      have hexpk0 : expiredInState c now k0 = true := by
        simp [expiredInState, hit, hexp]
      have hwf' : WF (unsafeDelete c k0) := WF_unsafeDelete c k0 hwf
      have hsub' : ∀ k ∈ keysOf rest, k ∈ keysOf (unsafeDelete c k0).values := by
        intro k hk
        have hne : k ≠ k0 := fun he => hk0rest (he ▸ hk)
        simp only [unsafeDelete]
        rw [mem_keysOf_mapErase_of_ne c.values k0 k hne]
        exact hsub k (List.mem_cons_of_mem k0 hk)
      obtain ⟨iha, ihb⟩ := ih (unsafeDelete c k0) (deleted + 1) hwf' hndr hsub'
      have hloop : cleanIntervalLoop ((k0, v0) :: rest) c now deleted
          = cleanIntervalLoop rest (unsafeDelete c k0) now (deleted + 1) := by
        simp only [cleanIntervalLoop, hit, if_pos hexp]
      refine ⟨fun k => ?_, ?_⟩
      · rw [hloop, iha k]
        by_cases hk : k = k0
        · subst hk
          rw [if_neg (by simp [hk0rest]), if_pos ⟨List.mem_cons_self k (keysOf rest), hexpk0⟩]
          simp only [unsafeDelete]
          exact mapLookup_mapErase_self c.values k hwf.1
        · rw [expiredInState_unsafeDelete_of_ne c now k0 k hk]
          simp only [unsafeDelete]
          rw [mapLookup_mapErase_ne c.values k0 k hk, keysOf_cons]
          by_cases hmem : k ∈ keysOf rest
          · by_cases hE : expiredInState c now k = true
            · rw [if_pos ⟨hmem, hE⟩, if_pos ⟨List.mem_cons_of_mem k0 hmem, hE⟩]
            · rw [if_neg (fun hcon => hE hcon.2), if_neg (fun hcon => hE hcon.2)]
          · rw [if_neg (by simp [hmem]), if_neg (by simp [hmem, hk])]
      · rw [hloop, ihb, keysOf_cons]
        have hfc : (keysOf rest).filter (fun k => expiredInState (unsafeDelete c k0) now k)
            = (keysOf rest).filter (fun k => expiredInState c now k) := by
          refine List.filter_congr fun k hk => ?_
          exact expiredInState_unsafeDelete_of_ne c now k0 k (fun he => hk0rest (he ▸ hk))
        rw [hfc, List.filter_cons, if_pos (by simp [hexpk0]), List.length_cons]
        push_cast
        ring
    · -- the head entry is not expired and is kept
      have hexpk0 : expiredInState c now k0 = false := by
        simp [expiredInState, hit, hexp]
      obtain ⟨iha, ihb⟩ := ih c deleted hwf hndr (fun k hk => hsub k (List.mem_cons_of_mem k0 hk))
      have hloop : cleanIntervalLoop ((k0, v0) :: rest) c now deleted
          = cleanIntervalLoop rest c now deleted := by
        simp only [cleanIntervalLoop, hit, if_neg hexp]
      refine ⟨fun k => ?_, ?_⟩
      · rw [hloop, iha k]
        by_cases hk : k = k0
        · subst hk
          rw [if_neg (by simp [hk0rest]), if_neg (by simp [hexpk0])]
        · rw [keysOf_cons]
          by_cases hmem : k ∈ keysOf rest
          · by_cases hE : expiredInState c now k = true
            · rw [if_pos ⟨hmem, hE⟩, if_pos ⟨List.mem_cons_of_mem k0 hmem, hE⟩]
            · rw [if_neg (fun hcon => hE hcon.2), if_neg (fun hcon => hE hcon.2)]
          · rw [if_neg (by simp [hmem]), if_neg (by simp [hmem, hk])]
      · rw [hloop, ihb, keysOf_cons, List.filter_cons, if_neg (by simp [hexpk0])]

/-- Per-key effect of one sweep pass: exactly the entries whose queue
node's expiry lies strictly before `now` are removed, and the returned
count is the number of such entries. -/
theorem cleanInterval_spec (c : LRUCache) (now : Int) (hwf : WF c) :
    (∀ k, mapLookup (cleanInterval c now).fst.values k
        = if k ∈ keysOf c.values ∧ expiredInState c now k = true then none
          else mapLookup c.values k)
    ∧ (cleanInterval c now).snd
        = ((keysOf c.values).filter (fun k => expiredInState c now k)).length := by
  obtain ⟨ha, hb⟩ := cleanIntervalLoop_spec c.values c now 0 hwf hwf.1 (fun k hk => hk)
  exact ⟨ha, by rw [cleanInterval, hb]; ring⟩

/-! ### Behavior of Set -/

theorem Set_of_found (c : LRUCache) (k v : Nat) (now : Int)
    (hlk : (mapLookup c.values k).isSome = true) :
    Set c k v now = setUpdateSection c k v := by
  simp [Set, setCheckFound, hlk]

theorem Set_of_fresh (c : LRUCache) (k v : Nat) (now : Int)
    (hlk : mapLookup c.values k = none) :
    Set c k v now = setInsertSection c k v now := by
  simp [Set, setCheckFound, hlk]

theorem getLast?_cons_isSome {α : Type} (a : α) (l : List α) :
    ∃ b, (a :: l).getLast? = some b := by
  induction l generalizing a with
  | nil => exact ⟨a, by simp⟩
  | cons a' l' ih =>
    obtain ⟨b, hb⟩ := ih a'
    exact ⟨b, by rw [List.getLast?_cons_cons]; exact hb⟩

theorem getLast?_cons_of_ne_nil {α : Type} (a : α) (l : List α) (b : α)
    (h : (a :: l).getLast? = some b) (hne : l ≠ []) : l.getLast? = some b := by
  cases l with
  | nil => exact absurd rfl hne
  | cons a' l' =>
    rw [List.getLast?_cons_cons] at h
    exact h

theorem setInsertSection_fits (c : LRUCache) (k v : Nat) (now : Int)
    (hfits : ¬ ((⟨k, now + c.defaultTTL⟩ : LruQueueItem) :: c.queue).length > c.maxSize) :
    setInsertSection c k v now =
      { c with queue := (⟨k, now + c.defaultTTL⟩ : LruQueueItem) :: c.queue,
               values := mapSet c.values k v } := by
  simp only [setInsertSection, if_neg hfits]

theorem setInsertSection_over (c : LRUCache) (k v : Nat) (now : Int)
    (hwf : WF c) (habs : k ∉ keysOf c.values)
    (hover : ((⟨k, now + c.defaultTTL⟩ : LruQueueItem) :: c.queue).length > c.maxSize) :
    ∃ b, ((⟨k, now + c.defaultTTL⟩ : LruQueueItem) :: c.queue).getLast? = some b
    ∧ setInsertSection c k v now =
        { c with values := mapErase (mapSet c.values k v) b.key,
                 queue := ((⟨k, now + c.defaultTTL⟩ : LruQueueItem) :: c.queue).dropLast } := by
  obtain ⟨b, hb⟩ := getLast?_cons_isSome (⟨k, now + c.defaultTTL⟩ : LruQueueItem) c.queue
  refine ⟨b, hb, ?_⟩
  have hqabs : k ∉ queueKeys c.queue := fun hm => habs (hwf.2.2.2 k hm)
  have hnd : (queueKeys ((⟨k, now + c.defaultTTL⟩ : LruQueueItem) :: c.queue)).Nodup := by
    rw [queueKeys_cons]
    exact List.nodup_cons.mpr ⟨hqabs, hwf.2.1⟩
  simp only [setInsertSection, if_pos hover, hb]
  rw [unsafeDelete]
  rw [removeKey_getLast _ b hb hnd]

/-! ### A recency-instrumented trace semantics

To state that eviction always removes the least recently touched key,
runs of the engine are instrumented with a step counter and, per key,
the step index of the last `Get` hit or `Set` that touched it. -/

/-- One client operation issued against the engine. -/
inductive Op where
  | get (k : Nat)
  | set (k v : Nat)
deriving DecidableEq

/-- Instrumented trace state: the cache, the per-key last-touch step
index, and the current step counter. -/
structure TState where
  cache : LRUCache
  touch : Nat → Nat
  clock : Nat

/-- Execute one operation and record the touch.  (`Set` is run at
instant 0: the recency order does not depend on the insertion clock.) -/
def stepT (s : TState) (op : Op) : TState :=
  match op with
  | .get k =>
    { cache := (Get s.cache k).snd,
      touch := if (Get s.cache k).fst.isSome then Function.update s.touch k s.clock
               else s.touch,
      clock := s.clock + 1 }
  | .set k v =>
    { cache := Set s.cache k v 0,
      touch := Function.update s.touch k s.clock,
      clock := s.clock + 1 }

/-- Run a list of operations in order. -/
def runT (s : TState) : List Op → TState
  | [] => s
  | op :: ops => runT (stepT s op) ops

/-- The initial trace state: an empty engine with capacity `m` and TTL
disabled (TTL plays no role in recency). -/
def initT (m : Nat) : TState :=
  ⟨⟨[], [], m, -1⟩, fun _ => 0, 0⟩

/-- Trace invariant: the cache is well formed, the queue's keys appear
front-to-back in strictly decreasing last-touch order, and every present
key was touched before the current step. -/
def RecencyInv (s : TState) : Prop :=
  WF s.cache
  ∧ (queueKeys s.cache.queue).Pairwise (fun a b => s.touch b < s.touch a)
  ∧ (∀ k ∈ queueKeys s.cache.queue, s.touch k < s.clock)

theorem touch_getLast_min (l : List Nat) (t : Nat → Nat)
    (hp : l.Pairwise (fun a b => t b < t a)) (b : Nat) (hb : l.getLast? = some b) :
    ∀ a ∈ l, t b ≤ t a := by
  induction l with
  | nil => simp at hb
  | cons hd tl ih =>
    intro a ha
    cases tl with
    | nil =>
      simp only [List.getLast?_singleton, Option.some_inj] at hb
      rw [List.mem_singleton] at ha
      rw [ha, hb]
    | cons hd' tl' =>
      rw [List.getLast?_cons_cons] at hb
      have hbmem : b ∈ hd' :: tl' := by
        have : ∀ (l' : List Nat) (x : Nat), l'.getLast? = some x → x ∈ l' := by
          intro l'
          induction l' with
          | nil => intro x hx; simp at hx
          | cons y ys ihy =>
            intro x hx
            cases ys with
            | nil =>
              simp only [List.getLast?_singleton, Option.some_inj] at hx
              simp [hx]
            | cons y' ys' =>
              rw [List.getLast?_cons_cons] at hx
              exact List.mem_cons_of_mem y (ihy x hx)
        exact this _ b hb
      rw [List.mem_cons] at ha
      rcases ha with rfl | ha
      · exact le_of_lt ((List.pairwise_cons.mp hp).1 b hbmem)
      · exact ih (List.pairwise_cons.mp hp).2 hb a ha

theorem pairwise_touch_promote (q : List LruQueueItem) (k : Nat) (t : Nat → Nat) (n : Nat)
    (hn : (queueKeys q).Nodup)
    (hp : (queueKeys q).Pairwise (fun a b => t b < t a))
    (hb : ∀ k' ∈ queueKeys q, t k' < n)
    (hm : k ∈ queueKeys q) :
    (queueKeys (moveToFront q k)).Pairwise
      (fun a b => Function.update t k n b < Function.update t k n a)
    ∧ (∀ k' ∈ queueKeys (moveToFront q k), Function.update t k n k' < n + 1) := by
  rw [queueKeys_moveToFront_of_mem q k hm]
  have hknr : k ∉ queueKeys (removeKey q k) := not_mem_queueKeys_removeKey q k hn
  have hsubm : ∀ a, a ∈ queueKeys (removeKey q k) → a ∈ queueKeys q :=
    fun a ha => (queueKeys_removeKey_sublist q k).subset ha
  constructor
  · refine List.pairwise_cons.mpr ⟨?_, ?_⟩
    · intro b hbmem
      have hbk : b ≠ k := fun he => hknr (he ▸ hbmem)
      rw [Function.update_noteq hbk, Function.update_same]
      exact hb b (hsubm b hbmem)
    · have hpr : (queueKeys (removeKey q k)).Pairwise (fun a b => t b < t a) :=
        hp.sublist (queueKeys_removeKey_sublist q k)
      refine hpr.imp_of_mem ?_
      intro a b ha hbmem hab
      have hak : a ≠ k := fun he => hknr (he ▸ ha)
      have hbk : b ≠ k := fun he => hknr (he ▸ hbmem)
      rw [Function.update_noteq hak, Function.update_noteq hbk]
      exact hab
  · intro k' hk'
    rw [List.mem_cons] at hk'
    rcases hk' with rfl | hk'
    · rw [Function.update_same]
      exact Nat.lt_succ_self n
    · have hk'k : k' ≠ k := fun he => hknr (he ▸ hk')
      rw [Function.update_noteq hk'k]
      exact lt_trans (hb k' (hsubm k' hk')) (Nat.lt_succ_self n)

theorem pairwise_touch_insert (q : List LruQueueItem) (it : LruQueueItem) (t : Nat → Nat)
    (n : Nat)
    (hp : (queueKeys q).Pairwise (fun a b => t b < t a))
    (hb : ∀ k' ∈ queueKeys q, t k' < n)
    (habs : it.key ∉ queueKeys q) :
    (queueKeys (it :: q)).Pairwise
      (fun a b => Function.update t it.key n b < Function.update t it.key n a)
    ∧ (∀ k' ∈ queueKeys (it :: q), Function.update t it.key n k' < n + 1) := by
  rw [queueKeys_cons]
  constructor
  · refine List.pairwise_cons.mpr ⟨?_, ?_⟩
    · intro b hbmem
      have hbk : b ≠ it.key := fun he => habs (he ▸ hbmem)
      rw [Function.update_noteq hbk, Function.update_same]
      exact hb b hbmem
    · refine hp.imp_of_mem ?_
      intro a b ha hbmem hab
      have hak : a ≠ it.key := fun he => habs (he ▸ ha)
      have hbk : b ≠ it.key := fun he => habs (he ▸ hbmem)
      rw [Function.update_noteq hak, Function.update_noteq hbk]
      exact hab
  · intro k' hk'
    rw [List.mem_cons] at hk'
    rcases hk' with rfl | hk'
    · rw [Function.update_same]
      exact Nat.lt_succ_self n
    · have hk'k : k' ≠ it.key := fun he => habs (he ▸ hk')
      rw [Function.update_noteq hk'k]
      exact lt_trans (hb k' hk') (Nat.lt_succ_self n)

theorem recencyInv_init (m : Nat) : RecencyInv (initT m) := by
  refine ⟨⟨List.nodup_nil, List.nodup_nil, ?_, ?_⟩, ?_, ?_⟩ <;>
    simp [initT, keysOf, queueKeys]

theorem recencyInv_step (s : TState) (op : Op) (h : RecencyInv s) :
    RecencyInv (stepT s op) := by
  obtain ⟨hwf, hp, hb⟩ := h
  cases op with
  | get k =>
    cases hlk : mapLookup s.cache.values k with
    | none =>
      have hget : Get s.cache k = (none, s.cache) := by simp [Get, hlk]
      refine ⟨?_, ?_, ?_⟩
      · simpa [stepT, hget] using hwf
      · simpa [stepT, hget] using hp
      · intro k' hk'
        simp only [stepT, hget, Option.isSome_none, Bool.false_eq_true, if_false]
        simp only [stepT, hget] at hk'
        exact lt_trans (hb k' hk') (Nat.lt_succ_self s.clock)
    | some v =>
      have hget : Get s.cache k
          = (some v, { s.cache with queue := moveToFront s.cache.queue k }) := by
        simp [Get, hlk]
      have hmem : k ∈ queueKeys s.cache.queue :=
        hwf.2.2.1 k ((mapLookup_isSome_iff s.cache.values k).mp (by simp [hlk]))
      have hwf' : WF (Get s.cache k).snd := WF_Get s.cache k hwf
      obtain ⟨hp', hb'⟩ := pairwise_touch_promote s.cache.queue k s.touch s.clock
        hwf.2.1 hp hb hmem
      refine ⟨?_, ?_, ?_⟩
      · simpa [stepT] using hwf'
      · simpa [stepT, hget] using hp'
      · intro k' hk'
        simp only [stepT, hget] at hk' ⊢
        simp only [Option.isSome_some, if_true]
        exact hb' k' hk'
  | set k v =>
    have hwf' : WF (Set s.cache k v 0) := WF_Set s.cache k v 0 hwf
    cases hlk : mapLookup s.cache.values k with
    | some d =>
      have hset : Set s.cache k v 0 = setUpdateSection s.cache k v :=
        Set_of_found s.cache k v 0 (by simp [hlk])
      have hmem : k ∈ queueKeys s.cache.queue :=
        hwf.2.2.1 k ((mapLookup_isSome_iff s.cache.values k).mp (by simp [hlk]))
      obtain ⟨hp', hb'⟩ := pairwise_touch_promote s.cache.queue k s.touch s.clock
        hwf.2.1 hp hb hmem
      refine ⟨?_, ?_, ?_⟩
      · simpa [stepT] using hwf'
      · simpa [stepT, hset, setUpdateSection] using hp'
      · intro k' hk'
        simp only [stepT, hset, setUpdateSection] at hk' ⊢
        exact hb' k' hk'
    | none =>
      have habs : k ∉ keysOf s.cache.values := (mapLookup_eq_none_iff s.cache.values k).mp hlk
      have hqabs : (⟨k, (0 : Int) + s.cache.defaultTTL⟩ : LruQueueItem).key
          ∉ queueKeys s.cache.queue := fun hm => habs (hwf.2.2.2 k hm)
      have hset : Set s.cache k v 0 = setInsertSection s.cache k v 0 :=
        Set_of_fresh s.cache k v 0 hlk
      obtain ⟨hpI, hbI⟩ := pairwise_touch_insert s.cache.queue
        (⟨k, (0 : Int) + s.cache.defaultTTL⟩ : LruQueueItem) s.touch s.clock hp hb hqabs
      have hsubq : List.Sublist (setInsertSection s.cache k v 0).queue
          ((⟨k, (0 : Int) + s.cache.defaultTTL⟩ : LruQueueItem) :: s.cache.queue) := by
        rw [setInsertSection]
        by_cases hover :
            ((⟨k, (0 : Int) + s.cache.defaultTTL⟩ : LruQueueItem) :: s.cache.queue).length
              > s.cache.maxSize
        · simp only [if_pos hover]
          cases hlast :
              ((⟨k, (0 : Int) + s.cache.defaultTTL⟩ : LruQueueItem) :: s.cache.queue).getLast?
              with
          | none => exact List.Sublist.refl _
          | some b =>
            simp only [unsafeDelete]
            exact removeKey_sublist _ b.key
        · simp only [if_neg hover]
          exact List.Sublist.refl _
      have hsubk : List.Sublist (queueKeys (setInsertSection s.cache k v 0).queue)
          (queueKeys ((⟨k, (0 : Int) + s.cache.defaultTTL⟩ : LruQueueItem) :: s.cache.queue)) :=
        List.Sublist.map LruQueueItem.key hsubq
      refine ⟨?_, ?_, ?_⟩
      · simpa [stepT] using hwf'
      · simp only [stepT, hset]
        exact hpI.sublist hsubk
      · intro k' hk'
        simp only [stepT, hset] at hk' ⊢
        exact hbI k' (hsubk.subset hk')

theorem recencyInv_run (m : Nat) (ops : List Op) : RecencyInv (runT (initT m) ops) := by
  suffices h : ∀ (s : TState), RecencyInv s → RecencyInv (runT s ops) from
    h (initT m) (recencyInv_init m)
  induction ops with
  | nil => exact fun s hs => hs
  | cons op rest ih => exact fun s hs => ih (stepT s op) (recencyInv_step s op hs)

/-! ### The claims -/

/-- C8: after `Clean` (the spec's Clear, src/main.go lines 156-162) the
cache is empty - `Size` returns 0 and `Get` finds no key, previously
inserted or not - and no eviction-callback invocation is made, however
many entries were discarded. -/
theorem claim_clear_empties_without_callback (c : LRUCache) :
    Size (Clean c).fst = 0
    ∧ (∀ k, (Get (Clean c).fst k).fst = none)
    ∧ (Clean c).snd = [] := by
  refine ⟨rfl, fun k => ?_, rfl⟩
  simp [Clean, Get, mapLookup]

/-- C7: `Delete` on a present key removes the entry and its queue node
and invokes the eviction callback exactly once with count 1; on an
absent key it changes nothing and makes no callback invocation
(src/main.go lines 141-154). -/
theorem claim_delete_semantics (c : LRUCache) (k : Nat) (hwf : WF c) :
    ((mapLookup c.values k).isSome = true →
      Delete c k = (unsafeDelete c k, [1])
      ∧ mapLookup (Delete c k).fst.values k = none
      ∧ k ∉ queueKeys (Delete c k).fst.queue)
    ∧ (mapLookup c.values k = none → Delete c k = (c, [])) := by
  constructor
  · intro hsome
    obtain ⟨d, hd⟩ := Option.isSome_iff_exists.mp hsome
    have hdel : Delete c k = (unsafeDelete c k, [1]) := by simp [Delete, hd]
    refine ⟨hdel, ?_, ?_⟩
    · rw [hdel]
      simp only [unsafeDelete]
      exact mapLookup_mapErase_self c.values k hwf.1
    · rw [hdel]
      simp only [unsafeDelete]
      exact not_mem_queueKeys_removeKey c.queue k hwf.2.1
  · intro hnone
    simp [Delete, hnone]

theorem claim_delete_semantics_witness :
    Delete (⟨[(1, 10)], [⟨1, 0⟩], 5, -1⟩ : LRUCache) 1
      = (unsafeDelete (⟨[(1, 10)], [⟨1, 0⟩], 5, -1⟩ : LRUCache) 1, [1])
    ∧ mapLookup (Delete (⟨[(1, 10)], [⟨1, 0⟩], 5, -1⟩ : LRUCache) 1).fst.values 1 = none
    ∧ 1 ∉ queueKeys (Delete (⟨[(1, 10)], [⟨1, 0⟩], 5, -1⟩ : LRUCache) 1).fst.queue :=
  (claim_delete_semantics (⟨[(1, 10)], [⟨1, 0⟩], 5, -1⟩ : LRUCache) 1 (by decide)).1
    (by decide)

/-- C5: `Get`, `Set`, `Delete`, `Clean` and a sweep pass each preserve
the store/queue correspondence `WF`, under which `Size` equals the
number of stored keys. -/
theorem claim_operations_preserve_correspondence (c : LRUCache) (k v : Nat) (now : Int)
    (hwf : WF c) :
    WF (Get c k).snd ∧ WF (Set c k v now) ∧ WF (Delete c k).fst ∧ WF (Clean c).fst
    ∧ WF (cleanInterval c now).fst ∧ Size c = (keysOf c.values).length :=
  ⟨WF_Get c k hwf, WF_Set c k v now hwf, WF_Delete c k hwf, WF_Clean c,
    WF_cleanInterval c now hwf, by rw [Size_eq_values_length c hwf, length_keysOf]⟩

theorem claim_operations_preserve_correspondence_witness :
    WF (Get (⟨[(1, 10)], [⟨1, 0⟩], 2, -1⟩ : LRUCache) 1).snd
    ∧ WF (Set (⟨[(1, 10)], [⟨1, 0⟩], 2, -1⟩ : LRUCache) 1 20 0)
    ∧ WF (Delete (⟨[(1, 10)], [⟨1, 0⟩], 2, -1⟩ : LRUCache) 1).fst
    ∧ WF (Clean (⟨[(1, 10)], [⟨1, 0⟩], 2, -1⟩ : LRUCache)).fst
    ∧ WF (cleanInterval (⟨[(1, 10)], [⟨1, 0⟩], 2, -1⟩ : LRUCache) 0).fst
    ∧ Size (⟨[(1, 10)], [⟨1, 0⟩], 2, -1⟩ : LRUCache)
        = (keysOf (⟨[(1, 10)], [⟨1, 0⟩], 2, -1⟩ : LRUCache).values).length :=
  claim_operations_preserve_correspondence (⟨[(1, 10)], [⟨1, 0⟩], 2, -1⟩ : LRUCache)
    1 20 0 (by decide)

/-- C4 counterexample: a single entry whose expiry instant equals the
sweep instant (expiry 5, sweep at 5) survives the sweep with count 0:
the code's test `item.ttl.Sub(time.Now()) < 0` (src/main.go line 176) is
strict, so entries expiring exactly at the sweep time are NOT removed,
contrary to the claim. -/
theorem claim_sweep_boundary_counterexample :
    mapLookup (cleanInterval ⟨[(1, 10)], [⟨1, 5⟩], 10, 5⟩ 5).fst.values 1 = some 10
    ∧ (cleanInterval ⟨[(1, 10)], [⟨1, 5⟩], 10, 5⟩ 5).snd = 0
    ∧ expiredInState ⟨[(1, 10)], [⟨1, 5⟩], 10, 5⟩ 5 1 = false := by decide

/-- C4 (amended): a single sweep pass removes exactly those entries
whose expiry lies STRICTLY before the sweep instant, and after the scan
the eviction callback is invoked exactly once, carrying the total count
of entries removed in the pass. -/
theorem claim_sweep_removes_strictly_expired (c : LRUCache) (now : Int) (hwf : WF c) :
    (∀ k, mapLookup (cleanInterval c now).fst.values k
        = if k ∈ keysOf c.values ∧ expiredInState c now k = true then none
          else mapLookup c.values k)
    ∧ (cleanInterval c now).snd
        = ((keysOf c.values).filter (fun k => expiredInState c now k)).length
    ∧ cleanIntervalEvents c now = [(cleanInterval c now).snd] := by
  obtain ⟨ha, hb⟩ := cleanInterval_spec c now hwf
  exact ⟨ha, hb, rfl⟩

theorem claim_sweep_removes_strictly_expired_witness :
    (∀ k, mapLookup
        (cleanInterval (⟨[(1, 10), (2, 20)], [⟨2, 8⟩, ⟨1, 3⟩], 10, 5⟩ : LRUCache) 5).fst.values k
        = if k ∈ keysOf (⟨[(1, 10), (2, 20)], [⟨2, 8⟩, ⟨1, 3⟩], 10, 5⟩ : LRUCache).values
            ∧ expiredInState (⟨[(1, 10), (2, 20)], [⟨2, 8⟩, ⟨1, 3⟩], 10, 5⟩ : LRUCache) 5 k
                = true
          then none
          else mapLookup (⟨[(1, 10), (2, 20)], [⟨2, 8⟩, ⟨1, 3⟩], 10, 5⟩ : LRUCache).values k)
    ∧ (cleanInterval (⟨[(1, 10), (2, 20)], [⟨2, 8⟩, ⟨1, 3⟩], 10, 5⟩ : LRUCache) 5).snd
        = ((keysOf (⟨[(1, 10), (2, 20)], [⟨2, 8⟩, ⟨1, 3⟩], 10, 5⟩ : LRUCache).values).filter
            (fun k =>
              expiredInState (⟨[(1, 10), (2, 20)], [⟨2, 8⟩, ⟨1, 3⟩], 10, 5⟩ : LRUCache) 5 k)).length
    ∧ cleanIntervalEvents (⟨[(1, 10), (2, 20)], [⟨2, 8⟩, ⟨1, 3⟩], 10, 5⟩ : LRUCache) 5
        = [(cleanInterval (⟨[(1, 10), (2, 20)], [⟨2, 8⟩, ⟨1, 3⟩], 10, 5⟩ : LRUCache) 5).snd] :=
  claim_sweep_removes_strictly_expired
    (⟨[(1, 10), (2, 20)], [⟨2, 8⟩, ⟨1, 3⟩], 10, 5⟩ : LRUCache) 5 (by decide)

/-- C3 counterexample: configure TTL D = 10 and insert key 1 at time
T = 0; the entry's expiry is T+D = 10.  Until a sweep runs, the cache
state does not depend on the clock, and `Get` - which consults no clock
and performs no expiry check (src/main.go lines 97-110) - still returns
the value; in particular it does so at every instant at or after T+D,
contradicting the claimed unreachability. -/
theorem claim_ttl_unreachable_counterexample :
    (Set ⟨[], [], 100, 10⟩ 1 42 0).queue = [⟨1, 10⟩]
    ∧ (Get (Set ⟨[], [], 100, 10⟩ 1 42 0) 1).fst = some 42 := by decide

/-- C3 (amended): with a TTL configured, an inserted entry carries expiry
T+D but remains reachable through `Get` (which never checks expiry)
until a sweep pass runs at an instant at which the entry counts as
expired (strictly after T+D); that pass removes it, after which `Get`
returns not-found. -/
theorem claim_ttl_amended_reachable_until_sweep (c : LRUCache) (k d : Nat) (now : Int)
    (hwf : WF c) (hk : mapLookup c.values k = some d)
    (hexp : expiredInState c now k = true) :
    (Get c k).fst = some d
    ∧ mapLookup (cleanInterval c now).fst.values k = none
    ∧ (Get (cleanInterval c now).fst k).fst = none := by
  have hmem : k ∈ keysOf c.values := (mapLookup_isSome_iff _ _).mp (by simp [hk])
  obtain ⟨ha, _⟩ := cleanInterval_spec c now hwf
  have hnone : mapLookup (cleanInterval c now).fst.values k = none := by
    rw [ha k, if_pos ⟨hmem, hexp⟩]
  exact ⟨by simp [Get, hk], hnone, by simp [Get, hnone]⟩

theorem claim_ttl_amended_reachable_until_sweep_witness :
    (Get (Set ⟨[], [], 100, 10⟩ 1 42 0) 1).fst = some 42
    ∧ mapLookup (cleanInterval (Set ⟨[], [], 100, 10⟩ 1 42 0) 11).fst.values 1 = none
    ∧ (Get (cleanInterval (Set ⟨[], [], 100, 10⟩ 1 42 0) 11).fst 1).fst = none :=
  claim_ttl_amended_reachable_until_sweep (Set ⟨[], [], 100, 10⟩ 1 42 0) 1 42 11
    (by decide) (by decide) (by decide)

/-- C1: from any well-formed state within capacity, `Set` leaves at most
`maxSize` stored entries; it never evicts when the key was present or
the post-insertion queue still fits, and when the post-insertion size
exceeds `maxSize` it removes exactly one entry - the one at the back of
the recency queue (src/main.go lines 133-137). -/
theorem claim_set_capacity_and_single_eviction (c : LRUCache) (k v : Nat) (now : Int)
    (hwf : WF c) (hcap : Size c ≤ c.maxSize) :
    Size (Set c k v now) ≤ c.maxSize
    ∧ (evictedBySet c k now = none →
        ∀ k' ∈ queueKeys c.queue, k' ∈ queueKeys (Set c k v now).queue)
    ∧ (∀ e, evictedBySet c k now = some e →
        (Set c k v now).queue
          = ((⟨k, now + c.defaultTTL⟩ : LruQueueItem) :: c.queue).dropLast
        ∧ ((⟨k, now + c.defaultTTL⟩ : LruQueueItem) :: c.queue).getLast?.map
            LruQueueItem.key = some e) := by
  have hq : c.queue.length ≤ c.maxSize := hcap
  cases hlk : mapLookup c.values k with
  | some d =>
    have hset := Set_of_found c k v now (by simp [hlk])
    have hmem : k ∈ queueKeys c.queue :=
      hwf.2.2.1 k ((mapLookup_isSome_iff _ _).mp (by simp [hlk]))
    have hev : evictedBySet c k now = none := by
      simp [evictedBySet, setCheckFound, hlk]
    refine ⟨?_, ?_, ?_⟩
    · rw [hset]
      show (setUpdateSection c k v).queue.length ≤ c.maxSize
      simp only [setUpdateSection]
      rw [length_moveToFront_of_mem c.queue k hmem]
      exact hq
    · intro _ k' hk'
      rw [hset]
      simp only [setUpdateSection]
      rw [mem_queueKeys_moveToFront_iff c.queue k k' hmem]
      exact hk'
    · intro e he
      rw [hev] at he
      exact absurd he (by simp)
  | none =>
    have habs := (mapLookup_eq_none_iff c.values k).mp hlk
    have hset := Set_of_fresh c k v now hlk
    by_cases hover : ((⟨k, now + c.defaultTTL⟩ : LruQueueItem) :: c.queue).length > c.maxSize
    · obtain ⟨b, hb, hres⟩ := setInsertSection_over c k v now hwf habs hover
      have hover' : c.maxSize < c.queue.length + 1 := by
        simpa using hover
      have hev : evictedBySet c k now = some b.key := by
        simp [evictedBySet, setCheckFound, hlk, hover', hb]
      refine ⟨?_, ?_, ?_⟩
      · rw [hset, hres]
        show (((⟨k, now + c.defaultTTL⟩ : LruQueueItem) :: c.queue).dropLast).length ≤ c.maxSize
        rw [List.length_dropLast, List.length_cons]
        omega
      · intro hnone
        rw [hev] at hnone
        exact absurd hnone (by simp)
      · intro e he
        rw [hev, Option.some_inj] at he
        subst he
        refine ⟨by rw [hset, hres], ?_⟩
        rw [hb]
        simp
    · have hres := setInsertSection_fits c k v now hover
      have hover' : ¬ c.queue.length + 1 > c.maxSize := by
        simpa using hover
      have hev : evictedBySet c k now = none := by
        simp only [evictedBySet, setCheckFound, hlk, Option.isSome_none,
          Bool.false_eq_true, if_false, if_neg hover]
      refine ⟨?_, ?_, ?_⟩
      · rw [hset, hres]
        show (((⟨k, now + c.defaultTTL⟩ : LruQueueItem) :: c.queue)).length ≤ c.maxSize
        rw [List.length_cons]
        omega
      · intro _ k' hk'
        rw [hset, hres]
        show k' ∈ queueKeys ((⟨k, now + c.defaultTTL⟩ : LruQueueItem) :: c.queue)
        rw [queueKeys_cons]
        exact List.mem_cons_of_mem k hk'
      · intro e he
        rw [hev] at he
        exact absurd he (by simp)

theorem claim_set_capacity_and_single_eviction_witness :
    Size (Set (⟨[(1, 10), (2, 20)], [⟨2, 3⟩, ⟨1, 1⟩], 2, -1⟩ : LRUCache) 5 50 4) ≤ 2
    ∧ (evictedBySet (⟨[(1, 10), (2, 20)], [⟨2, 3⟩, ⟨1, 1⟩], 2, -1⟩ : LRUCache) 5 4 = none →
        ∀ k' ∈ queueKeys (⟨[(1, 10), (2, 20)], [⟨2, 3⟩, ⟨1, 1⟩], 2, -1⟩ : LRUCache).queue,
          k' ∈ queueKeys
            (Set (⟨[(1, 10), (2, 20)], [⟨2, 3⟩, ⟨1, 1⟩], 2, -1⟩ : LRUCache) 5 50 4).queue)
    ∧ (∀ e, evictedBySet (⟨[(1, 10), (2, 20)], [⟨2, 3⟩, ⟨1, 1⟩], 2, -1⟩ : LRUCache) 5 4
          = some e →
        (Set (⟨[(1, 10), (2, 20)], [⟨2, 3⟩, ⟨1, 1⟩], 2, -1⟩ : LRUCache) 5 50 4).queue
          = ((⟨5, 4 + (⟨[(1, 10), (2, 20)], [⟨2, 3⟩, ⟨1, 1⟩], 2, -1⟩ : LRUCache).defaultTTL⟩
              : LruQueueItem)
              :: (⟨[(1, 10), (2, 20)], [⟨2, 3⟩, ⟨1, 1⟩], 2, -1⟩ : LRUCache).queue).dropLast
        ∧ ((⟨5, 4 + (⟨[(1, 10), (2, 20)], [⟨2, 3⟩, ⟨1, 1⟩], 2, -1⟩ : LRUCache).defaultTTL⟩
              : LruQueueItem)
              :: (⟨[(1, 10), (2, 20)], [⟨2, 3⟩, ⟨1, 1⟩], 2, -1⟩ : LRUCache).queue).getLast?.map
            LruQueueItem.key = some e) :=
  claim_set_capacity_and_single_eviction
    (⟨[(1, 10), (2, 20)], [⟨2, 3⟩, ⟨1, 1⟩], 2, -1⟩ : LRUCache) 5 50 4 (by decide) (by decide)

/-- C6: `Get` on a present key returns the stored value - in particular
the value supplied by the most recent `Set` of that key - and moves the
key's queue node to the front; on an absent key it returns not-found and
leaves the state unchanged (src/main.go lines 97-110). -/
theorem claim_get_semantics (c : LRUCache) (k : Nat) (hwf : WF c)
    (hmax : 1 ≤ c.maxSize) :
    (∀ d, mapLookup c.values k = some d →
      (Get c k).fst = some d
      ∧ ∃ it, findItem c.queue k = some it ∧ it.key = k
          ∧ (Get c k).snd.queue = it :: removeKey c.queue k)
    ∧ (mapLookup c.values k = none → Get c k = (none, c))
    ∧ (∀ v now, (Get (Set c k v now) k).fst = some v) := by
  refine ⟨?_, ?_, ?_⟩
  · intro d hd
    have hmem : k ∈ queueKeys c.queue :=
      hwf.2.2.1 k ((mapLookup_isSome_iff _ _).mp (by simp [hd]))
    obtain ⟨it, hit, hitk⟩ := exists_findItem_of_mem c.queue k hmem
    refine ⟨by simp [Get, hd], it, hit, hitk, ?_⟩
    simp [Get, hd, moveToFront_eq c.queue k it hit]
  · intro hnone
    simp [Get, hnone]
  · intro v now
    cases hlk : mapLookup c.values k with
    | some d =>
      rw [Set_of_found c k v now (by simp [hlk])]
      simp [Get, setUpdateSection, mapLookup_mapSet_self]
    | none =>
      have habs := (mapLookup_eq_none_iff c.values k).mp hlk
      rw [Set_of_fresh c k v now hlk]
      by_cases hover :
          ((⟨k, now + c.defaultTTL⟩ : LruQueueItem) :: c.queue).length > c.maxSize
      · obtain ⟨b, hb, hres⟩ := setInsertSection_over c k v now hwf habs hover
        have hqne : c.queue ≠ [] := by
          intro he
          rw [he] at hover
          simp only [List.length_cons, List.length_nil] at hover
          omega
        have hbq : b ∈ c.queue :=
          getLast?_mem c.queue b (getLast?_cons_of_ne_nil _ c.queue b hb hqne)
        have hbk : b.key ≠ k := by
          intro he
          exact habs (hwf.2.2.2 k (he ▸ List.mem_map_of_mem LruQueueItem.key hbq))
        rw [hres]
        have hlkv : mapLookup (mapErase (mapSet c.values k v) b.key) k = some v := by
          rw [mapLookup_mapErase_ne _ _ _ (Ne.symm hbk), mapLookup_mapSet_self]
        simp [Get, hlkv]
      · rw [setInsertSection_fits c k v now hover]
        have hlkv : mapLookup (mapSet c.values k v) k = some v := mapLookup_mapSet_self c.values k v
        simp [Get, hlkv]

theorem claim_get_semantics_witness :
    ((Get (⟨[(1, 10), (2, 20)], [⟨2, 3⟩, ⟨1, 1⟩], 2, -1⟩ : LRUCache) 1).fst = some 10
      ∧ ∃ it, findItem (⟨[(1, 10), (2, 20)], [⟨2, 3⟩, ⟨1, 1⟩], 2, -1⟩ : LRUCache).queue 1
            = some it
          ∧ it.key = 1
          ∧ (Get (⟨[(1, 10), (2, 20)], [⟨2, 3⟩, ⟨1, 1⟩], 2, -1⟩ : LRUCache) 1).snd.queue
            = it :: removeKey (⟨[(1, 10), (2, 20)], [⟨2, 3⟩, ⟨1, 1⟩], 2, -1⟩ : LRUCache).queue 1)
    ∧ (∀ v now,
        (Get (Set (⟨[(1, 10), (2, 20)], [⟨2, 3⟩, ⟨1, 1⟩], 2, -1⟩ : LRUCache) 1 v now) 1).fst
          = some v) :=
  ⟨(claim_get_semantics (⟨[(1, 10), (2, 20)], [⟨2, 3⟩, ⟨1, 1⟩], 2, -1⟩ : LRUCache) 1
      (by decide) (by decide)).1 10 (by decide),
    (claim_get_semantics (⟨[(1, 10), (2, 20)], [⟨2, 3⟩, ⟨1, 1⟩], 2, -1⟩ : LRUCache) 1
      (by decide) (by decide)).2.2⟩

/-- C10: `Set` on a present key replaces the stored value and moves the
key's existing queue node to the front; the node - and with it the
entry's expiry instant, fixed at first insertion - is reused unchanged
(src/main.go lines 115-120 mutate `data` and relink, never `ttl`), and
every other entry's value, expiry and relative order are untouched. -/
theorem claim_set_update_frame (c : LRUCache) (k v d : Nat) (now : Int)
    (hwf : WF c) (hk : mapLookup c.values k = some d) :
    mapLookup (Set c k v now).values k = some v
    ∧ (∀ k', k' ≠ k → mapLookup (Set c k v now).values k' = mapLookup c.values k')
    ∧ (∃ it, findItem c.queue k = some it
        ∧ (Set c k v now).queue = it :: removeKey c.queue k
        ∧ findItem (Set c k v now).queue k = some it)
    ∧ (Set c k v now).queue.filter (fun it => it.key != k)
        = c.queue.filter (fun it => it.key != k) := by
  have hset := Set_of_found c k v now (by simp [hk])
  have hmem : k ∈ queueKeys c.queue :=
    hwf.2.2.1 k ((mapLookup_isSome_iff _ _).mp (by simp [hk]))
  obtain ⟨it, hit, hitk⟩ := exists_findItem_of_mem c.queue k hmem
  have hq : (Set c k v now).queue = it :: removeKey c.queue k := by
    rw [hset]
    show (setUpdateSection c k v).queue = it :: removeKey c.queue k
    simp only [setUpdateSection]
    rw [moveToFront_eq c.queue k it hit]
  refine ⟨?_, ?_, ⟨it, hit, hq, ?_⟩, ?_⟩
  · rw [hset]
    show mapLookup (setUpdateSection c k v).values k = some v
    simp only [setUpdateSection]
    exact mapLookup_mapSet_self c.values k v
  · intro k' hk'
    rw [hset]
    show mapLookup (setUpdateSection c k v).values k' = mapLookup c.values k'
    simp only [setUpdateSection]
    exact mapLookup_mapSet_ne c.values k v k' hk'
  · rw [hq]
    simp [findItem, hitk]
  · rw [hq, List.filter_cons]
    have hf : (it.key != k) = false := by simp [hitk]
    rw [hf]
    simp only [Bool.false_eq_true, if_false]
    rw [← filter_ne_eq_removeKey c.queue k hwf.2.1]
    exact List.filter_eq_self.mpr (fun a ha => (List.mem_filter.mp ha).2)

theorem claim_set_update_frame_witness :
    mapLookup (Set (⟨[(1, 10), (2, 20)], [⟨2, 9⟩, ⟨1, 7⟩], 2, 5⟩ : LRUCache) 1 99 100).values 1
      = some 99
    ∧ (∀ k', k' ≠ 1 →
        mapLookup (Set (⟨[(1, 10), (2, 20)], [⟨2, 9⟩, ⟨1, 7⟩], 2, 5⟩ : LRUCache) 1 99 100).values k'
          = mapLookup (⟨[(1, 10), (2, 20)], [⟨2, 9⟩, ⟨1, 7⟩], 2, 5⟩ : LRUCache).values k')
    ∧ (∃ it, findItem (⟨[(1, 10), (2, 20)], [⟨2, 9⟩, ⟨1, 7⟩], 2, 5⟩ : LRUCache).queue 1 = some it
        ∧ (Set (⟨[(1, 10), (2, 20)], [⟨2, 9⟩, ⟨1, 7⟩], 2, 5⟩ : LRUCache) 1 99 100).queue
          = it :: removeKey (⟨[(1, 10), (2, 20)], [⟨2, 9⟩, ⟨1, 7⟩], 2, 5⟩ : LRUCache).queue 1
        ∧ findItem (Set (⟨[(1, 10), (2, 20)], [⟨2, 9⟩, ⟨1, 7⟩], 2, 5⟩ : LRUCache) 1 99 100).queue 1
          = some it)
    ∧ (Set (⟨[(1, 10), (2, 20)], [⟨2, 9⟩, ⟨1, 7⟩], 2, 5⟩ : LRUCache) 1 99 100).queue.filter
        (fun it => it.key != 1)
      = (⟨[(1, 10), (2, 20)], [⟨2, 9⟩, ⟨1, 7⟩], 2, 5⟩ : LRUCache).queue.filter
        (fun it => it.key != 1) :=
  claim_set_update_frame (⟨[(1, 10), (2, 20)], [⟨2, 9⟩, ⟨1, 7⟩], 2, 5⟩ : LRUCache) 1 99 10 100
    (by decide) (by decide)

/-- C9 (the code violates it): `Set` RELEASES the lock between its
found-check section (src/main.go lines 113-121) and its insert section
(lines 127-138).  In the interleaving where two callers both run the
check for the same absent key before either runs the insert - each
section being, on its own, exactly the code's atomic critical section -
both inserts execute: the store ends up with one binding for the key
while the recency queue holds two nodes for it, so the claimed
one-node-per-stored-key invariant is violated and the mutating steps
were not mutually exclusive as one unit. -/
theorem claim_lock_split_race :
    setCheckFound ⟨[], [], 10, -1⟩ 1 = false
    ∧ ¬ WF (setInsertSection (setInsertSection ⟨[], [], 10, -1⟩ 1 5 0) 1 6 0)
    ∧ queueKeys (setInsertSection (setInsertSection ⟨[], [], 10, -1⟩ 1 5 0) 1 6 0).queue
        = [1, 1]
    ∧ keysOf (setInsertSection (setInsertSection ⟨[], [], 10, -1⟩ 1 5 0) 1 6 0).values
        = [1] := by decide

/-- C2: along any run of Get/Set operations from the empty engine, any
key that a further `Set` removes from the recency queue is one whose
last touch (by a Get hit or a Set) is no later than that of every key
present at that moment (the just-inserted key included); and in the
capacity-2 scenario insert 1, insert 2, Get 1, insert 3, the evicted key
is 2: Get 1 and Get 3 succeed and Get 2 returns not-found. -/
theorem claim_lru_evicts_least_recently_touched (ops : List Op) (m k v e : Nat)
    (he : e ∈ queueKeys (runT (initT m) ops).cache.queue)
    (hgone : e ∉ queueKeys (Set (runT (initT m) ops).cache k v 0).queue) :
    (∀ k' ∈ k :: queueKeys (runT (initT m) ops).cache.queue,
        Function.update (runT (initT m) ops).touch k (runT (initT m) ops).clock e
          ≤ Function.update (runT (initT m) ops).touch k (runT (initT m) ops).clock k')
    ∧ ((Get (runT (initT 2) [Op.set 1 10, Op.set 2 20, Op.get 1, Op.set 3 30]).cache 1).fst
        = some 10
      ∧ (Get (runT (initT 2) [Op.set 1 10, Op.set 2 20, Op.get 1, Op.set 3 30]).cache 2).fst
        = none
      ∧ (Get (runT (initT 2) [Op.set 1 10, Op.set 2 20, Op.get 1, Op.set 3 30]).cache 3).fst
        = some 30) := by
  refine ⟨?_, by decide, by decide, by decide⟩
  obtain ⟨hwf, hp, hb⟩ := recencyInv_run m ops
  cases hlk : mapLookup (runT (initT m) ops).cache.values k with
  | some d =>
    have hset := Set_of_found (runT (initT m) ops).cache k v 0 (by simp [hlk])
    have hmem : k ∈ queueKeys (runT (initT m) ops).cache.queue :=
      hwf.2.2.1 k ((mapLookup_isSome_iff _ _).mp (by simp [hlk]))
    rw [hset] at hgone
    simp only [setUpdateSection] at hgone
    rw [mem_queueKeys_moveToFront_iff _ k e hmem] at hgone
    exact absurd he hgone
  | none =>
    have habs := (mapLookup_eq_none_iff _ k).mp hlk
    have hqabs : k ∉ queueKeys (runT (initT m) ops).cache.queue :=
      fun hm => habs (hwf.2.2.2 k hm)
    have hset := Set_of_fresh (runT (initT m) ops).cache k v 0 hlk
    rw [hset] at hgone
    by_cases hover :
        ((⟨k, (0 : Int) + (runT (initT m) ops).cache.defaultTTL⟩ : LruQueueItem)
            :: (runT (initT m) ops).cache.queue).length
          > (runT (initT m) ops).cache.maxSize
    · obtain ⟨b, hbl, hres⟩ :=
        setInsertSection_over (runT (initT m) ops).cache k v 0 hwf habs hover
      rw [hres] at hgone
      have hqne : (runT (initT m) ops).cache.queue ≠ [] := by
        intro hnil
        rw [hnil] at he
        simp [queueKeys] at he
      have hql : (runT (initT m) ops).cache.queue.getLast? = some b :=
        getLast?_cons_of_ne_nil _ _ b hbl hqne
      have hbq : b ∈ (runT (initT m) ops).cache.queue := getLast?_mem _ b hql
      have hbkq : b.key ∈ queueKeys (runT (initT m) ops).cache.queue :=
        List.mem_map_of_mem LruQueueItem.key hbq
      have hndQ : (queueKeys ((⟨k, (0 : Int) + (runT (initT m) ops).cache.defaultTTL⟩
          : LruQueueItem) :: (runT (initT m) ops).cache.queue)).Nodup := by
        rw [queueKeys_cons]
        exact List.nodup_cons.mpr ⟨hqabs, hwf.2.1⟩
      have hdrop :
          ((⟨k, (0 : Int) + (runT (initT m) ops).cache.defaultTTL⟩ : LruQueueItem)
              :: (runT (initT m) ops).cache.queue).dropLast
            = removeKey ((⟨k, (0 : Int) + (runT (initT m) ops).cache.defaultTTL⟩
                : LruQueueItem) :: (runT (initT m) ops).cache.queue) b.key :=
        (removeKey_getLast _ b hbl hndQ).symm
      have hek : e = b.key := by
        by_contra hne
        apply hgone
        show e ∈ queueKeys (((⟨k, (0 : Int) + (runT (initT m) ops).cache.defaultTTL⟩
            : LruQueueItem) :: (runT (initT m) ops).cache.queue).dropLast)
        rw [hdrop, mem_queueKeys_removeKey_of_ne _ b.key e hne, queueKeys_cons]
        exact List.mem_cons_of_mem k he
      have hmin : ∀ a ∈ queueKeys (runT (initT m) ops).cache.queue,
          (runT (initT m) ops).touch b.key ≤ (runT (initT m) ops).touch a := by
        have hqlk : (queueKeys (runT (initT m) ops).cache.queue).getLast? = some b.key := by
          show ((runT (initT m) ops).cache.queue.map LruQueueItem.key).getLast? = some b.key
          rw [List.getLast?_map, hql]
          rfl
        exact touch_getLast_min _ (runT (initT m) ops).touch hp b.key hqlk
      have hbkk : b.key ≠ k := fun hcon => hqabs (hcon ▸ hbkq)
      intro k' hk'
      rw [List.mem_cons] at hk'
      subst hek
      rcases hk' with rfl | hk'
      · rw [Function.update_same, Function.update_noteq hbkk]
        exact le_of_lt (hb b.key hbkq)
      · have hk'k : k' ≠ k := fun hcon => hqabs (hcon ▸ hk')
        rw [Function.update_noteq hbkk, Function.update_noteq hk'k]
        exact hmin k' hk'
    · rw [setInsertSection_fits _ k v 0 hover] at hgone
      exact absurd (by
        show e ∈ queueKeys ((⟨k, (0 : Int) + (runT (initT m) ops).cache.defaultTTL⟩
            : LruQueueItem) :: (runT (initT m) ops).cache.queue)
        rw [queueKeys_cons]
        exact List.mem_cons_of_mem k he) hgone

theorem claim_lru_evicts_least_recently_touched_witness :
    (1 ∈ queueKeys (runT (initT 2) [Op.set 1 10, Op.set 2 20]).cache.queue)
    ∧ (1 ∉ queueKeys (Set (runT (initT 2) [Op.set 1 10, Op.set 2 20]).cache 3 30 0).queue)
    ∧ ((∀ k' ∈ 3 :: queueKeys (runT (initT 2) [Op.set 1 10, Op.set 2 20]).cache.queue,
          Function.update (runT (initT 2) [Op.set 1 10, Op.set 2 20]).touch 3
              (runT (initT 2) [Op.set 1 10, Op.set 2 20]).clock 1
            ≤ Function.update (runT (initT 2) [Op.set 1 10, Op.set 2 20]).touch 3
              (runT (initT 2) [Op.set 1 10, Op.set 2 20]).clock k')
      ∧ ((Get (runT (initT 2) [Op.set 1 10, Op.set 2 20, Op.get 1, Op.set 3 30]).cache 1).fst
          = some 10
        ∧ (Get (runT (initT 2) [Op.set 1 10, Op.set 2 20, Op.get 1, Op.set 3 30]).cache 2).fst
          = none
        ∧ (Get (runT (initT 2) [Op.set 1 10, Op.set 2 20, Op.get 1, Op.set 3 30]).cache 3).fst
          = some 30)) :=
  ⟨by decide, by decide,
    claim_lru_evicts_least_recently_touched [Op.set 1 10, Op.set 2 20] 2 3 30 1
      (by decide) (by decide)⟩

end LRU
